import Mathlib

/-!
Verification of the ToteMaster YOLO detection service
(src/backend/python-yolo-service/main.py).

The Python source is shallowly embedded below.  Python exceptions
(the KeyError that `confidence_levels[...]` can raise inside
`consolidate_items`, and the per-photo fetch/detect failures in the
multi-photo handler) are modelled with `Option`.  Python ints are `Int`,
Python floats entering the tier comparison are `Rat` (every IEEE double
is a rational and the comparisons against the literals 0.8 and 0.5
classify every double identically to the rational thresholds), and the
insertion-ordered Python dict used by `consolidate_items` is an
association list with in-place update.
-/

/-- Embedding of the pydantic model `DetectedItem` from main.py. -/
structure DetectedItem where
  name : String
  description : String
  category : String
  quantity : Int
  condition : String
  confidence : String
  aiGenerated : Bool
  sourcePhoto : String
deriving DecidableEq

/-- Embedding of one YOLO detection dict: keys `class` and `confidence`. -/
structure Detection where
  class_name : String
  confidence : Rat
deriving DecidableEq

/-- Embedding of the pydantic model `AnalysisResponse` from main.py. -/
structure AnalysisResponse where
  items : List DetectedItem
  photosAnalyzed : Nat
deriving DecidableEq

/-- Python str.lower on the character sequence (the labels handled by
this service are ASCII). -/
def pyLower (s : String) : String :=
  String.mk (s.data.map Char.toLower)

/-- The consolidation key built in `consolidate_items`:
the Python expression is the f-string of item.name.lower(), a dash, and
item.category. -/
def itemKey (item : DetectedItem) : String :=
  pyLower item.name ++ "-" ++ item.category

/-- The dict `confidence_levels` from `consolidate_items`; indexing a
missing key raises KeyError in Python, modelled as `none`. -/
def confidence_levels (c : String) : Option Nat :=
  if c = "high" then some 3
  else if c = "medium" then some 2
  else if c = "low" then some 1
  else none

/-- Numeric rank of a tier string, with 0 as junk for strings outside
the three-valued enum. -/
def levelOf (c : String) : Nat :=
  if c = "high" then 3
  else if c = "medium" then 2
  else if c = "low" then 1
  else 0

/-- The tier strings on which `confidence_levels` is defined. -/
def ValidTier (c : String) : Prop :=
  c = "high" ∨ c = "medium" ∨ c = "low"

instance (c : String) : Decidable (ValidTier c) := by
  unfold ValidTier
  infer_instance

/-- Ordered-dict lookup: first binding of the key wins. -/
def lookupAssoc : List (String × DetectedItem) → String → Option DetectedItem
  | [], _ => none
  | (k, v) :: rest, key => if k = key then some v else lookupAssoc rest key

/-- Ordered-dict in-place update: the binding keeps its position. -/
def updateAssoc : List (String × DetectedItem) → String → DetectedItem →
    List (String × DetectedItem)
  | [], _, _ => []
  | (k, v) :: rest, key, newV =>
      if k = key then (k, newV) :: rest else (k, v) :: updateAssoc rest key newV

/-- One iteration of the loop body of `consolidate_items`: merge `item`
into the dict `m`.  In the duplicate branch Python increments the
quantity and then indexes `confidence_levels` with both tier strings,
raising KeyError when either is absent. -/
def consolidateStep (m : List (String × DetectedItem)) (item : DetectedItem) :
    Option (List (String × DetectedItem)) :=
  match lookupAssoc m (itemKey item) with
  | some rep => do
      let current_level ← confidence_levels rep.confidence
      let new_level ← confidence_levels item.confidence
      let rep2 :=
        { rep with
          quantity := rep.quantity + 1,
          confidence :=
            if new_level > current_level then item.confidence else rep.confidence }
      some (updateAssoc m (itemKey item) rep2)
  | none => some (m ++ [(itemKey item, item)])

/-- The whole loop of `consolidate_items`, folding over the input. -/
def consolidateFold : List (String × DetectedItem) → List DetectedItem →
    Option (List (String × DetectedItem))
  | m, [] => some m
  | m, item :: rest => do
      let m2 ← consolidateStep m item
      consolidateFold m2 rest

/-- Embedding of `consolidate_items` from main.py: run the loop on an
empty dict and return the dict values in insertion order. -/
def consolidate_items (items : List DetectedItem) : Option (List DetectedItem) :=
  (consolidateFold [] items).map (List.map Prod.snd)

/-- The merge performed on a representative when its key is seen again,
assuming both tier lookups succeed: quantity goes up by one and the tier
is overwritten only when the incoming tier ranks strictly higher. -/
def mergeOne (rep item : DetectedItem) : DetectedItem :=
  { rep with
    quantity := rep.quantity + 1,
    confidence :=
      if levelOf item.confidence > levelOf rep.confidence then item.confidence
      else rep.confidence }

/-- Number of input items sharing a given consolidation key. -/
def countKey (k : String) (items : List DetectedItem) : Nat :=
  (items.filter (fun i => itemKey i == k)).length

/-- Tier ranks of the input items sharing a given consolidation key, in
input order. -/
def keyLevels (k : String) (items : List DetectedItem) : List Nat :=
  (items.filter (fun i => itemKey i == k)).map (fun i => levelOf i.confidence)

/-- Equality of every field a merge is not allowed to touch. -/
def frameEq (a b : DetectedItem) : Prop :=
  a.name = b.name ∧ a.description = b.description ∧ a.category = b.category ∧
  a.condition = b.condition ∧ a.aiGenerated = b.aiGenerated ∧
  a.sourcePhoto = b.sourcePhoto

/-- Keys of a list in first-occurrence order, given the keys already
seen. -/
def firstOccFrom : List String → List String → List String
  | _, [] => []
  | seen, k :: rest =>
      if k ∈ seen then firstOccFrom seen rest
      else k :: firstOccFrom (k :: seen) rest

/-- Keys of a list in first-occurrence order. -/
def firstOcc (l : List String) : List String := firstOccFrom [] l

/-- The consolidation key as the spec words it: the pair of the
lowercased name and the category (the code instead joins them with a
dash into one string). -/
def consolidationKeyPair (item : DetectedItem) : String × String :=
  (pyLower item.name, item.category)

/-- The static CATEGORY_MAPPING table from main.py. -/
def CATEGORY_MAPPING : List (String × String) :=
  [("laptop", "electronics"), ("cell phone", "electronics"),
   ("tv", "electronics"), ("keyboard", "electronics"),
   ("mouse", "electronics"), ("remote", "electronics"),
   ("clock", "electronics"),
   ("bottle", "kitchen"), ("wine glass", "kitchen"), ("cup", "kitchen"),
   ("fork", "kitchen"), ("knife", "kitchen"), ("spoon", "kitchen"),
   ("bowl", "kitchen"), ("banana", "kitchen"), ("apple", "kitchen"),
   ("orange", "kitchen"), ("broccoli", "kitchen"), ("carrot", "kitchen"),
   ("pizza", "kitchen"), ("donut", "kitchen"), ("cake", "kitchen"),
   ("refrigerator", "kitchen"), ("microwave", "kitchen"), ("oven", "kitchen"),
   ("toaster", "kitchen"),
   ("handbag", "clothing"), ("tie", "clothing"), ("suitcase", "clothing"),
   ("umbrella", "clothing"), ("backpack", "clothing"),
   ("frisbee", "sports"), ("skis", "sports"), ("snowboard", "sports"),
   ("sports ball", "sports"), ("kite", "sports"), ("baseball bat", "sports"),
   ("baseball glove", "sports"), ("skateboard", "sports"),
   ("surfboard", "sports"), ("tennis racket", "sports"),
   ("book", "books"), ("teddy bear", "toys"),
   ("scissors", "tools"), ("hair drier", "tools"), ("toothbrush", "tools"),
   ("chair", "decorations"), ("couch", "decorations"),
   ("potted plant", "decorations"), ("bed", "decorations"),
   ("dining table", "decorations"), ("toilet", "decorations"),
   ("sink", "decorations"), ("vase", "decorations")]

/-- Character stream of Python str.title: an alphabetic character is
uppercased after a non-alphabetic one and lowercased otherwise. -/
def titleGo : Bool → List Char → List Char
  | _, [] => []
  | prevAlpha, c :: rest =>
      (if c.isAlpha then (if prevAlpha then c.toLower else c.toUpper) else c)
        :: titleGo c.isAlpha rest

/-- Python str.title on ASCII strings. -/
def pyTitle (s : String) : String :=
  String.mk (titleGo false s.data)

/-- Round a rational to the nearest integer, ties to even, as Python
round and percent formatting do. -/
def roundHalfEven (q : Rat) : Int :=
  let f : Int := ⌊q⌋
  let frac : Rat := q - f
  if frac < 1/2 then f
  else if 1/2 < frac then f + 1
  else if f % 2 = 0 then f else f + 1

/-- Embedding of `map_detection_to_item` from main.py. -/
def map_detection_to_item (detection : Detection) (photo_url : String) :
    DetectedItem :=
  let class_name := detection.class_name
  let confidence_score := detection.confidence
  let category := (List.lookup (pyLower class_name) CATEGORY_MAPPING).getD "uncategorized"
  let item_name := pyTitle class_name
  let description :=
    "Detected with " ++ toString (roundHalfEven (confidence_score * 100)) ++
      "% confidence"
  let confidence_level :=
    if confidence_score ≥ 8/10 then "high"
    else if confidence_score ≥ 5/10 then "medium"
    else "low"
  { name := item_name, description := description, category := category,
    quantity := 1, condition := "good", confidence := confidence_level,
    aiGenerated := true, sourcePhoto := photo_url }

/-- Embedding of the `analyze_multiple_photos` handler.  The per-URL
fetch-then-detect pipeline is an oracle returning `none` when the loop
body raises for that URL (the handler catches the exception, logs and
continues) and the detection list otherwise.  The final consolidation
runs outside the try block, so a KeyError there would escape, hence the
Option result. -/
def analyze_multiple_photos (fetch_detect : String → Option (List Detection))
    (photoUrls : List String) : Option AnalysisResponse := do
  let all_items := photoUrls.flatMap (fun photo_url =>
    match fetch_detect photo_url with
    | some detections =>
        detections.map (fun det => map_detection_to_item det photo_url)
    | none => [])
  let consolidated_items ← consolidate_items all_items
  some { items := consolidated_items, photosAnalyzed := photoUrls.length }

/-- A fetch-then-detect oracle on which every photo fails. -/
def fdNone : String → Option (List Detection) := fun _ => none

/-- A concrete item: one low-confidence mug. -/
def exA : DetectedItem :=
  ⟨"Mug", "d1", "kitchen", 1, "good", "low", true, "p1"⟩

/-- A concrete item: one high-confidence mug, same key as exA. -/
def exB : DetectedItem :=
  ⟨"Mug", "d2", "kitchen", 1, "good", "high", true, "p2"⟩

/-- The result of folding exB into exA. -/
def exAB : DetectedItem :=
  ⟨"Mug", "d1", "kitchen", 2, "good", "high", true, "p1"⟩

/-- A concrete item whose key differs from the key of exA. -/
def exC : DetectedItem :=
  ⟨"Fork", "d3", "kitchen", 1, "good", "medium", true, "p3"⟩

/-- An item whose name contains a dash. -/
def exDash1 : DetectedItem :=
  ⟨"A-B", "d4", "c", 1, "good", "low", true, "p4"⟩

/-- An item with a different (name, category) pair than exDash1 but the
same dash-joined key string. -/
def exDash2 : DetectedItem :=
  ⟨"A", "d5", "b-c", 1, "good", "low", true, "p5"⟩

/-- The merge of exDash2 into exDash1. -/
def exDash12 : DetectedItem :=
  ⟨"A-B", "d4", "c", 2, "good", "low", true, "p4"⟩

/-- An item carrying quantity 2. -/
def exQ2 : DetectedItem :=
  ⟨"Vase", "d6", "decorations", 2, "good", "low", true, "p6"⟩

/-- An item with the same key as exQ2 and quantity 1. -/
def exQ1 : DetectedItem :=
  ⟨"Vase", "d7", "decorations", 1, "good", "low", true, "p7"⟩

/-- Consolidating exQ2 then exQ1. -/
def exQ21 : DetectedItem :=
  ⟨"Vase", "d6", "decorations", 3, "good", "low", true, "p6"⟩

/-- Consolidating exQ1 then exQ2. -/
def exQ12 : DetectedItem :=
  ⟨"Vase", "d7", "decorations", 2, "good", "low", true, "p7"⟩

theorem confidence_levels_of_valid {c : String} (h : ValidTier c) :
    confidence_levels c = some (levelOf c) := by
  rcases h with h | h | h <;> subst h <;> rfl

theorem confidence_levels_of_not_valid {c : String} (h : ¬ ValidTier c) :
    confidence_levels c = none := by
  unfold ValidTier at h
  push_neg at h
  unfold confidence_levels
  simp [h.1, h.2.1, h.2.2]

theorem valid_of_confidence_levels {c : String} {n : Nat}
    (h : confidence_levels c = some n) : ValidTier c ∧ n = levelOf c := by
  unfold confidence_levels at h
  unfold ValidTier levelOf
  split_ifs at h <;> simp_all

theorem levelOf_inj {a b : String} (ha : ValidTier a) (hb : ValidTier b)
    (h : levelOf a = levelOf b) : a = b := by
  rcases ha with h1 | h1 | h1 <;> rcases hb with h2 | h2 | h2 <;>
    subst h1 <;> subst h2 <;> simp_all [levelOf]

theorem one_le_levelOf {a : String} (h : ValidTier a) : 1 ≤ levelOf a := by
  rcases h with h | h | h <;> subst h <;> decide

theorem lookupAssoc_mem {m : List (String × DetectedItem)} {k : String}
    {v : DetectedItem} (h : lookupAssoc m k = some v) : (k, v) ∈ m := by
  induction m with
  | nil => simp [lookupAssoc] at h
  | cons e rest ih =>
      obtain ⟨k0, v0⟩ := e
      simp only [lookupAssoc] at h
      by_cases hk : k0 = k
      · rw [if_pos hk] at h
        obtain rfl : v0 = v := Option.some.inj h
        subst hk
        exact List.mem_cons_self _ _
      · rw [if_neg hk] at h
        exact List.mem_cons_of_mem _ (ih h)

theorem lookupAssoc_eq_none {m : List (String × DetectedItem)} {k : String} :
    lookupAssoc m k = none ↔ k ∉ m.map Prod.fst := by
  induction m with
  | nil => simp [lookupAssoc]
  | cons e rest ih =>
      obtain ⟨k0, v0⟩ := e
      simp only [lookupAssoc, List.map_cons, List.mem_cons]
      by_cases hk : k0 = k
      · subst hk
        simp
      · rw [if_neg hk]
        have hne : ¬ k = k0 := fun h => hk h.symm
        simp [ih, hne]

theorem lookupAssoc_append (m1 m2 : List (String × DetectedItem)) (k : String) :
    lookupAssoc (m1 ++ m2) k =
      match lookupAssoc m1 k with
      | some v => some v
      | none => lookupAssoc m2 k := by
  induction m1 with
  | nil => simp [lookupAssoc]
  | cons e rest ih =>
      obtain ⟨k0, v0⟩ := e
      by_cases hk : k0 = k <;> simp [lookupAssoc, hk, ih]

theorem updateAssoc_map_fst (m : List (String × DetectedItem)) (k : String)
    (v : DetectedItem) : (updateAssoc m k v).map Prod.fst = m.map Prod.fst := by
  induction m with
  | nil => rfl
  | cons e rest ih =>
      obtain ⟨k0, v0⟩ := e
      by_cases hk : k0 = k <;> simp [updateAssoc, hk, ih]

theorem lookup_update_self {m : List (String × DetectedItem)} {k : String}
    {r : DetectedItem} (v : DetectedItem) (h : lookupAssoc m k = some r) :
    lookupAssoc (updateAssoc m k v) k = some v := by
  induction m with
  | nil => simp [lookupAssoc] at h
  | cons e rest ih =>
      obtain ⟨k0, v0⟩ := e
      by_cases hk : k0 = k
      · simp [updateAssoc, lookupAssoc, hk]
      · simp only [lookupAssoc, if_neg hk] at h
        simp [updateAssoc, lookupAssoc, hk, ih h]

theorem lookup_update_ne {m : List (String × DetectedItem)} {k k2 : String}
    (v : DetectedItem) (h : k2 ≠ k) :
    lookupAssoc (updateAssoc m k v) k2 = lookupAssoc m k2 := by
  induction m with
  | nil => rfl
  | cons e rest ih =>
      obtain ⟨k0, v0⟩ := e
      by_cases hk : k0 = k
      · subst hk
        have hne : k0 ≠ k2 := fun hh => h hh.symm
        simp [updateAssoc, lookupAssoc, hne]
      · simp [updateAssoc, lookupAssoc, hk, ih]

theorem updateAssoc_mem {m : List (String × DetectedItem)} {k : String}
    {v : DetectedItem} {e : String × DetectedItem}
    (h : e ∈ updateAssoc m k v) : e = (k, v) ∨ e ∈ m := by
  induction m with
  | nil => simp [updateAssoc] at h
  | cons e0 rest ih =>
      obtain ⟨k0, v0⟩ := e0
      by_cases hk : k0 = k
      · subst hk
        have h2 : e ∈ (k0, v) :: rest := by simpa [updateAssoc] using h
        rcases List.mem_cons.mp h2 with h3 | h3
        · exact Or.inl h3
        · exact Or.inr (List.mem_cons_of_mem _ h3)
      · have h2 : e = (k0, v0) ∨ e ∈ updateAssoc rest k v := by
          simpa [updateAssoc, hk] using h
        rcases h2 with h3 | h3
        · exact Or.inr (by simp [h3])
        · rcases ih h3 with h4 | h4
          · exact Or.inl h4
          · exact Or.inr (List.mem_cons_of_mem _ h4)

theorem lookup_of_mem_nodup {m : List (String × DetectedItem)}
    (hnd : (m.map Prod.fst).Nodup) {k : String} {v : DetectedItem}
    (h : (k, v) ∈ m) : lookupAssoc m k = some v := by
  induction m with
  | nil => simp at h
  | cons e rest ih =>
      obtain ⟨k0, v0⟩ := e
      simp only [List.map_cons, List.nodup_cons] at hnd
      rcases List.mem_cons.mp h with h1 | h1
      · injection h1 with hk hv
        subst hk
        subst hv
        simp [lookupAssoc]
      · have hk : k0 ≠ k := by
          intro hh
          subst hh
          exact hnd.1 (List.mem_map_of_mem Prod.fst h1)
        simp [lookupAssoc, hk, ih hnd.2 h1]

theorem consolidateStep_not_mem {m : List (String × DetectedItem)}
    {item : DetectedItem} (h : lookupAssoc m (itemKey item) = none) :
    consolidateStep m item = some (m ++ [(itemKey item, item)]) := by
  unfold consolidateStep
  rw [h]

theorem consolidateStep_mem {m : List (String × DetectedItem)}
    {item rep : DetectedItem} (h : lookupAssoc m (itemKey item) = some rep)
    (hr : ValidTier rep.confidence) (hi : ValidTier item.confidence) :
    consolidateStep m item =
      some (updateAssoc m (itemKey item) (mergeOne rep item)) := by
  unfold consolidateStep
  rw [h]
  dsimp only
  rw [confidence_levels_of_valid hr, confidence_levels_of_valid hi]
  rfl

theorem consolidateStep_inv {m m2 : List (String × DetectedItem)}
    {item : DetectedItem} (h : consolidateStep m item = some m2) :
    (lookupAssoc m (itemKey item) = none ∧ m2 = m ++ [(itemKey item, item)]) ∨
    (∃ rep, lookupAssoc m (itemKey item) = some rep ∧
      ValidTier rep.confidence ∧ ValidTier item.confidence ∧
      m2 = updateAssoc m (itemKey item) (mergeOne rep item)) := by
  cases hl : lookupAssoc m (itemKey item) with
  | none =>
      rw [consolidateStep_not_mem hl] at h
      exact Or.inl ⟨rfl, (Option.some.inj h).symm⟩
  | some rep =>
      by_cases hr : ValidTier rep.confidence
      · by_cases hi : ValidTier item.confidence
        · rw [consolidateStep_mem hl hr hi] at h
          exact Or.inr ⟨rep, rfl, hr, hi, (Option.some.inj h).symm⟩
        · exfalso
          unfold consolidateStep at h
          rw [hl] at h
          dsimp only at h
          rw [confidence_levels_of_valid hr,
            confidence_levels_of_not_valid hi] at h
          simp at h
      · exfalso
        unfold consolidateStep at h
        rw [hl] at h
        dsimp only at h
        rw [confidence_levels_of_not_valid hr] at h
        simp at h

theorem consolidateFold_nil (m : List (String × DetectedItem)) :
    consolidateFold m [] = some m := rfl

theorem consolidateFold_cons (m : List (String × DetectedItem))
    (i : DetectedItem) (rest : List DetectedItem) :
    consolidateFold m (i :: rest) =
      (consolidateStep m i).bind (fun m2 => consolidateFold m2 rest) := rfl

theorem consolidateFold_cons_inv {m mf : List (String × DetectedItem)}
    {i : DetectedItem} {rest : List DetectedItem}
    (h : consolidateFold m (i :: rest) = some mf) :
    ∃ m2, consolidateStep m i = some m2 ∧ consolidateFold m2 rest = some mf := by
  rw [consolidateFold_cons] at h
  cases hs : consolidateStep m i with
  | none => rw [hs] at h; simp at h
  | some m2 => rw [hs] at h; exact ⟨m2, rfl, h⟩

theorem mergeOne_quantity (rep item : DetectedItem) :
    (mergeOne rep item).quantity = rep.quantity + 1 := rfl

theorem mergeOne_itemKey (rep item : DetectedItem) :
    itemKey (mergeOne rep item) = itemKey rep := rfl

theorem frameEq_refl (a : DetectedItem) : frameEq a a :=
  ⟨rfl, rfl, rfl, rfl, rfl, rfl⟩

theorem frameEq_trans {a b c : DetectedItem} (h1 : frameEq a b)
    (h2 : frameEq b c) : frameEq a c := by
  obtain ⟨x1, x2, x3, x4, x5, x6⟩ := h1
  obtain ⟨y1, y2, y3, y4, y5, y6⟩ := h2
  exact ⟨x1.trans y1, x2.trans y2, x3.trans y3, x4.trans y4, x5.trans y5,
    x6.trans y6⟩

theorem frameEq_mergeOne (rep item : DetectedItem) :
    frameEq rep (mergeOne rep item) := ⟨rfl, rfl, rfl, rfl, rfl, rfl⟩

theorem mergeOne_level (rep item : DetectedItem) :
    levelOf (mergeOne rep item).confidence =
      max (levelOf rep.confidence) (levelOf item.confidence) := by
  by_cases h : levelOf item.confidence > levelOf rep.confidence
  · simp only [mergeOne, if_pos h]
    exact (max_eq_right (le_of_lt h)).symm
  · simp only [mergeOne, if_neg h]
    exact (max_eq_left (le_of_not_lt h)).symm

theorem mergeOne_confidence_cases (rep item : DetectedItem) :
    (mergeOne rep item).confidence = item.confidence ∨
    (mergeOne rep item).confidence = rep.confidence := by
  by_cases h : levelOf item.confidence > levelOf rep.confidence <;>
    simp [mergeOne, h]

theorem mergeOne_valid {rep item : DetectedItem}
    (hr : ValidTier rep.confidence) (hi : ValidTier item.confidence) :
    ValidTier (mergeOne rep item).confidence := by
  rcases mergeOne_confidence_cases rep item with h | h <;> rw [h]
  · exact hi
  · exact hr

theorem countKey_cons_self {i : DetectedItem} {k : String} (h : itemKey i = k)
    (l : List DetectedItem) : countKey k (i :: l) = countKey k l + 1 := by
  simp [countKey, List.filter_cons, h]

theorem countKey_cons_ne {i : DetectedItem} {k : String} (h : itemKey i ≠ k)
    (l : List DetectedItem) : countKey k (i :: l) = countKey k l := by
  simp [countKey, List.filter_cons, h]

theorem keyLevels_cons_self {i : DetectedItem} {k : String} (h : itemKey i = k)
    (l : List DetectedItem) :
    keyLevels k (i :: l) = levelOf i.confidence :: keyLevels k l := by
  simp [keyLevels, List.filter_cons, h]

theorem keyLevels_cons_ne {i : DetectedItem} {k : String} (h : itemKey i ≠ k)
    (l : List DetectedItem) : keyLevels k (i :: l) = keyLevels k l := by
  simp [keyLevels, List.filter_cons, h]

theorem firstOccFrom_congr : ∀ (l : List String) {s1 s2 : List String},
    (∀ a, a ∈ s1 ↔ a ∈ s2) → firstOccFrom s1 l = firstOccFrom s2 l := by
  intro l
  induction l with
  | nil => intro s1 s2 _; rfl
  | cons k rest ih =>
      intro s1 s2 h
      by_cases hk : k ∈ s1
      · simp only [firstOccFrom]
        rw [if_pos hk, if_pos ((h k).mp hk)]
        exact ih h
      · simp only [firstOccFrom]
        rw [if_neg hk, if_neg (fun hc => hk ((h k).mpr hc))]
        congr 1
        apply ih
        intro a
        simp [List.mem_cons, h a]

theorem mem_firstOccFrom {a : String} : ∀ {l seen : List String},
    a ∈ firstOccFrom seen l → a ∉ seen := by
  intro l
  induction l with
  | nil => intro seen h; simp [firstOccFrom] at h
  | cons k rest ih =>
      intro seen h
      by_cases hk : k ∈ seen
      · simp only [firstOccFrom, if_pos hk] at h
        exact ih h
      · simp only [firstOccFrom, if_neg hk] at h
        rcases List.mem_cons.mp h with rfl | h2
        · exact hk
        · intro ha
          exact ih h2 (List.mem_cons_of_mem _ ha)

theorem firstOccFrom_nodup : ∀ (l seen : List String),
    (firstOccFrom seen l).Nodup := by
  intro l
  induction l with
  | nil => intro seen; simp [firstOccFrom]
  | cons k rest ih =>
      intro seen
      by_cases hk : k ∈ seen
      · simp only [firstOccFrom, if_pos hk]
        exact ih _
      · simp only [firstOccFrom, if_neg hk]
        refine List.nodup_cons.mpr ⟨?_, ih _⟩
        intro hmem
        exact mem_firstOccFrom hmem (List.mem_cons_self _ _)

theorem fold_keys : ∀ {items : List DetectedItem}
    {m mf : List (String × DetectedItem)}, consolidateFold m items = some mf →
    mf.map Prod.fst =
      m.map Prod.fst ++ firstOccFrom (m.map Prod.fst) (items.map itemKey) := by
  intro items
  induction items with
  | nil =>
      intro m mf h
      rw [consolidateFold_nil] at h
      obtain rfl := Option.some.inj h
      simp [firstOccFrom]
  | cons i rest ih =>
      intro m mf h
      obtain ⟨m2, hs, hf⟩ := consolidateFold_cons_inv h
      rcases consolidateStep_inv hs with ⟨hnone, rfl⟩ | ⟨rep, hsome, _, _, rfl⟩
      · have hni : itemKey i ∉ m.map Prod.fst := lookupAssoc_eq_none.mp hnone
        rw [ih hf]
        simp only [List.map_append, List.map_cons, List.map_nil, firstOccFrom]
        rw [if_neg hni, List.append_assoc, List.singleton_append]
        have hcg := @firstOccFrom_congr (List.map itemKey rest)
          (List.map Prod.fst m ++ [itemKey i]) (itemKey i :: List.map Prod.fst m)
          (by intro a; simp [List.mem_append, List.mem_cons, or_comm])
        rw [hcg]
      · have hki : itemKey i ∈ m.map Prod.fst := by
          by_contra hc
          rw [← lookupAssoc_eq_none] at hc
          rw [hc] at hsome
          exact Option.noConfusion hsome
        have h2 := ih hf
        rw [updateAssoc_map_fst] at h2
        rw [h2, List.map_cons]
        simp only [firstOccFrom]
        rw [if_pos hki]

theorem fold_keys_nodup {items : List DetectedItem}
    {m mf : List (String × DetectedItem)} (hnd : (m.map Prod.fst).Nodup)
    (h : consolidateFold m items = some mf) : (mf.map Prod.fst).Nodup := by
  rw [fold_keys h]
  exact List.Nodup.append hnd (firstOccFrom_nodup _ _)
    (fun a ha hb => mem_firstOccFrom hb ha)

theorem fold_itemKey_inv : ∀ {items : List DetectedItem}
    {m mf : List (String × DetectedItem)}, (∀ e ∈ m, itemKey e.2 = e.1) →
    consolidateFold m items = some mf → ∀ e ∈ mf, itemKey e.2 = e.1 := by
  intro items
  induction items with
  | nil =>
      intro m mf hm h
      rw [consolidateFold_nil] at h
      obtain rfl := Option.some.inj h
      exact hm
  | cons i rest ih =>
      intro m mf hm h
      obtain ⟨m2, hs, hf⟩ := consolidateFold_cons_inv h
      rcases consolidateStep_inv hs with ⟨hnone, rfl⟩ | ⟨rep, hsome, _, _, rfl⟩
      · refine ih ?_ hf
        intro e he
        rcases List.mem_append.mp he with he | he
        · exact hm e he
        · rw [List.mem_singleton] at he
          subst he
          rfl
      · refine ih ?_ hf
        intro e he
        rcases updateAssoc_mem he with rfl | he
        · have hrep : itemKey rep = itemKey i := hm _ (lookupAssoc_mem hsome)
          simpa [mergeOne_itemKey] using hrep
        · exact hm e he

theorem fold_valid : ∀ {items : List DetectedItem}
    {m : List (String × DetectedItem)},
    (∀ e ∈ m, ValidTier (e.2.confidence)) →
    (∀ i ∈ items, ValidTier i.confidence) →
    ∃ mf, consolidateFold m items = some mf ∧
      ∀ e ∈ mf, ValidTier (e.2.confidence) := by
  intro items
  induction items with
  | nil => intro m hm _; exact ⟨m, rfl, hm⟩
  | cons i rest ih =>
      intro m hm hi
      have hiv : ValidTier i.confidence := hi i (List.mem_cons_self _ _)
      cases hl : lookupAssoc m (itemKey i) with
      | none =>
          have hm2 : ∀ e ∈ m ++ [(itemKey i, i)], ValidTier e.2.confidence := by
            intro e he
            rcases List.mem_append.mp he with he | he
            · exact hm e he
            · rw [List.mem_singleton] at he
              subst he
              exact hiv
          obtain ⟨mf, hf, hvf⟩ :=
            ih hm2 (fun j hj => hi j (List.mem_cons_of_mem _ hj))
          refine ⟨mf, ?_, hvf⟩
          rw [consolidateFold_cons, consolidateStep_not_mem hl]
          exact hf
      | some rep =>
          have hrv : ValidTier rep.confidence := hm _ (lookupAssoc_mem hl)
          have hm2 : ∀ e ∈ updateAssoc m (itemKey i) (mergeOne rep i),
              ValidTier e.2.confidence := by
            intro e he
            rcases updateAssoc_mem he with rfl | he
            · exact mergeOne_valid hrv hiv
            · exact hm e he
          obtain ⟨mf, hf, hvf⟩ :=
            ih hm2 (fun j hj => hi j (List.mem_cons_of_mem _ hj))
          refine ⟨mf, ?_, hvf⟩
          rw [consolidateFold_cons, consolidateStep_mem hl hrv hiv]
          exact hf

theorem fold_char : ∀ {items : List DetectedItem}
    {m mf : List (String × DetectedItem)},
    consolidateFold m items = some mf → ∀ (k : String) (r2 : DetectedItem),
    lookupAssoc mf k = some r2 →
    (∃ r, lookupAssoc m k = some r ∧ frameEq r r2 ∧
      r2.quantity = r.quantity + (countKey k items : Int) ∧
      levelOf r2.confidence =
        (keyLevels k items).foldl max (levelOf r.confidence)) ∨
    (lookupAssoc m k = none ∧ ∃ x,
      List.find? (fun i => itemKey i == k) items = some x ∧ frameEq x r2 ∧
      r2.quantity = x.quantity + (countKey k items : Int) - 1 ∧
      levelOf r2.confidence = (keyLevels k items).foldl max 0) := by
  intro items
  induction items with
  | nil =>
      intro m mf h k r2 hmf
      rw [consolidateFold_nil] at h
      obtain rfl := Option.some.inj h
      left
      refine ⟨r2, hmf, frameEq_refl r2, ?_, ?_⟩
      · simp [countKey]
      · simp [keyLevels]
  | cons i rest ih =>
      intro m mf h k r2 hmf
      obtain ⟨m2, hs, hf⟩ := consolidateFold_cons_inv h
      rcases consolidateStep_inv hs with ⟨hnone, rfl⟩ | ⟨rep, hsome, hrv, hiv, rfl⟩
      · rcases ih hf k r2 hmf with ⟨r1, hr1, hfr, hq, hlv⟩ |
          ⟨hnone2, x, hx, hfr, hq, hlv⟩
        · rw [lookupAssoc_append] at hr1
          cases hmk : lookupAssoc m k with
          | some r0 =>
              rw [hmk] at hr1
              obtain rfl : r0 = r1 := Option.some.inj hr1
              have hkne : itemKey i ≠ k := by
                intro hh
                rw [hh, hmk] at hnone
                exact Option.noConfusion hnone
              left
              refine ⟨r0, rfl, hfr, ?_, ?_⟩
              · rw [countKey_cons_ne hkne]
                exact hq
              · rw [keyLevels_cons_ne hkne]
                exact hlv
          | none =>
              rw [hmk] at hr1
              by_cases hkk : itemKey i = k
              · have hr1b : some i = some r1 := by
                  simpa [lookupAssoc, hkk] using hr1
                obtain rfl : i = r1 := Option.some.inj hr1b
                right
                refine ⟨rfl, i, ?_, hfr, ?_, ?_⟩
                · rw [List.find?_cons_of_pos]
                  simp [hkk]
                · rw [countKey_cons_self hkk]
                  push_cast
                  omega
                · rw [keyLevels_cons_self hkk, List.foldl_cons, Nat.zero_max]
                  exact hlv
              · exfalso
                simp [lookupAssoc, hkk] at hr1
        · rw [lookupAssoc_append] at hnone2
          cases hmk : lookupAssoc m k with
          | some r0 =>
              rw [hmk] at hnone2
              exact absurd hnone2 (by simp)
          | none =>
              rw [hmk] at hnone2
              have hkne : itemKey i ≠ k := by
                intro hh
                simp [lookupAssoc, hh] at hnone2
              right
              refine ⟨rfl, x, ?_, hfr, ?_, ?_⟩
              · rw [List.find?_cons_of_neg]
                · exact hx
                · simp [hkne]
              · rw [countKey_cons_ne hkne]
                exact hq
              · rw [keyLevels_cons_ne hkne]
                exact hlv
      · by_cases hkk : k = itemKey i
        · subst hkk
          have hlk2 :
              lookupAssoc (updateAssoc m (itemKey i) (mergeOne rep i))
                (itemKey i) = some (mergeOne rep i) :=
            lookup_update_self _ hsome
          rcases ih hf (itemKey i) r2 hmf with ⟨r1, hr1, hfr, hq, hlv⟩ |
            ⟨hnone2, _⟩
          · obtain rfl : mergeOne rep i = r1 :=
              Option.some.inj (hlk2.symm.trans hr1)
            left
            refine ⟨rep, hsome, frameEq_trans (frameEq_mergeOne rep i) hfr,
              ?_, ?_⟩
            · rw [countKey_cons_self rfl]
              rw [mergeOne_quantity] at hq
              push_cast
              omega
            · rw [keyLevels_cons_self rfl, List.foldl_cons, ← mergeOne_level]
              exact hlv
          · rw [hlk2] at hnone2
            exact absurd hnone2 (by simp)
        · have hkne : itemKey i ≠ k := fun hh => hkk hh.symm
          have hlk2 : lookupAssoc (updateAssoc m (itemKey i) (mergeOne rep i)) k =
              lookupAssoc m k := lookup_update_ne _ hkk
          rcases ih hf k r2 hmf with ⟨r1, hr1, hfr, hq, hlv⟩ |
            ⟨hnone2, x, hx, hfr, hq, hlv⟩
          · left
            refine ⟨r1, by rw [← hlk2]; exact hr1, hfr, ?_, ?_⟩
            · rw [countKey_cons_ne hkne]
              exact hq
            · rw [keyLevels_cons_ne hkne]
              exact hlv
          · right
            refine ⟨by rw [← hlk2]; exact hnone2, x, ?_, hfr, ?_, ?_⟩
            · rw [List.find?_cons_of_neg]
              · exact hx
              · simp [hkne]
            · rw [countKey_cons_ne hkne]
              exact hq
            · rw [keyLevels_cons_ne hkne]
              exact hlv

theorem fold_fresh_nodup : ∀ {items : List DetectedItem}
    {m : List (String × DetectedItem)},
    (∀ i ∈ items, lookupAssoc m (itemKey i) = none) →
    (items.map itemKey).Nodup →
    consolidateFold m items =
      some (m ++ items.map (fun j => (itemKey j, j))) := by
  intro items
  induction items with
  | nil =>
      intro m _ _
      simp [consolidateFold_nil]
  | cons i rest ih =>
      intro m hfresh hnd
      have hni := hfresh i (List.mem_cons_self _ _)
      rw [consolidateFold_cons, consolidateStep_not_mem hni]
      simp only [List.map_cons, List.nodup_cons] at hnd
      have hfresh2 : ∀ j ∈ rest,
          lookupAssoc (m ++ [(itemKey i, i)]) (itemKey j) = none := by
        intro j hj
        rw [lookupAssoc_append, hfresh j (List.mem_cons_of_mem _ hj)]
        have hne : itemKey i ≠ itemKey j := by
          intro hh
          exact hnd.1 (hh ▸ List.mem_map_of_mem itemKey hj)
        simp [lookupAssoc, hne]
      have h2 := ih hfresh2 hnd.2
      rw [List.append_assoc, List.singleton_append] at h2
      simp only [List.map_cons]
      exact h2

theorem consolidate_of_nodup_keys {items : List DetectedItem}
    (hnd : (items.map itemKey).Nodup) : consolidate_items items = some items := by
  have h := @fold_fresh_nodup items [] (fun i _ => rfl) hnd
  unfold consolidate_items
  rw [h]
  show some (List.map Prod.snd ([] ++ List.map (fun j => (itemKey j, j)) items)) =
    some items
  refine congrArg some ?_
  rw [List.nil_append, List.map_map]
  exact List.map_id items

theorem consolidate_items_inv {items out : List DetectedItem}
    (h : consolidate_items items = some out) :
    ∃ mf, consolidateFold [] items = some mf ∧ out = mf.map Prod.snd := by
  unfold consolidate_items at h
  cases hf : consolidateFold [] items with
  | none => rw [hf] at h; simp at h
  | some mf => rw [hf] at h; exact ⟨mf, rfl, (Option.some.inj h).symm⟩

theorem out_lookup {items : List DetectedItem}
    {mf : List (String × DetectedItem)}
    (hf : consolidateFold [] items = some mf) {r : DetectedItem}
    (hr : r ∈ mf.map Prod.snd) : lookupAssoc mf (itemKey r) = some r := by
  obtain ⟨e, he, hesnd⟩ := List.mem_map.mp hr
  obtain ⟨k, r0⟩ := e
  dsimp only at hesnd
  subst hesnd
  have hkey : itemKey r0 = k :=
    fold_itemKey_inv (fun e he => absurd he (List.not_mem_nil e)) hf (k, r0) he
  have hnd : (mf.map Prod.fst).Nodup :=
    fold_keys_nodup (by simp) hf
  rw [hkey]
  exact lookup_of_mem_nodup hnd he

theorem fold_one_key : ∀ (rest : List DetectedItem) (k : String)
    (r : DetectedItem), ValidTier r.confidence →
    (∀ i ∈ rest, ValidTier i.confidence) → (∀ i ∈ rest, itemKey i = k) →
    consolidateFold [(k, r)] rest = some [(k, List.foldl mergeOne r rest)] := by
  intro rest
  induction rest with
  | nil =>
      intro k r _ _ _
      simp [consolidateFold_nil]
  | cons i rest2 ih =>
      intro k r hr hv hk
      have hik : itemKey i = k := hk i (List.mem_cons_self _ _)
      have hil : lookupAssoc [(k, r)] (itemKey i) = some r := by
        simp [lookupAssoc, hik]
      have hiv : ValidTier i.confidence := hv i (List.mem_cons_self _ _)
      rw [consolidateFold_cons, consolidateStep_mem hil hr hiv]
      have hupd : updateAssoc [(k, r)] (itemKey i) (mergeOne r i) =
          [(k, mergeOne r i)] := by
        simp [updateAssoc, hik]
      rw [hupd, List.foldl_cons]
      exact ih k (mergeOne r i) (mergeOne_valid hr hiv)
        (fun j hj => hv j (List.mem_cons_of_mem _ hj))
        (fun j hj => hk j (List.mem_cons_of_mem _ hj))

theorem foldl_mergeOne_quantity : ∀ (l : List DetectedItem) (r : DetectedItem),
    (List.foldl mergeOne r l).quantity = r.quantity + (l.length : Int) := by
  intro l
  induction l with
  | nil => intro r; simp
  | cons i rest ih =>
      intro r
      rw [List.foldl_cons, ih, mergeOne_quantity]
      simp only [List.length_cons]
      push_cast
      ring

theorem foldl_mergeOne_level : ∀ (l : List DetectedItem) (r : DetectedItem),
    levelOf (List.foldl mergeOne r l).confidence =
      (l.map (fun i => levelOf i.confidence)).foldl max
        (levelOf r.confidence) := by
  intro l
  induction l with
  | nil => intro r; simp
  | cons i rest ih =>
      intro r
      rw [List.foldl_cons, ih, mergeOne_level, List.map_cons, List.foldl_cons]

theorem foldl_mergeOne_valid : ∀ (l : List DetectedItem) (r : DetectedItem),
    ValidTier r.confidence → (∀ i ∈ l, ValidTier i.confidence) →
    ValidTier (List.foldl mergeOne r l).confidence := by
  intro l
  induction l with
  | nil => intro r hr _; exact hr
  | cons i rest ih =>
      intro r hr hv
      rw [List.foldl_cons]
      exact ih (mergeOne r i)
        (mergeOne_valid hr (hv i (List.mem_cons_self _ _)))
        (fun j hj => hv j (List.mem_cons_of_mem _ hj))

theorem consolidate_single_key (x : DetectedItem) (rest : List DetectedItem)
    (hv : ∀ i ∈ x :: rest, ValidTier i.confidence)
    (hk : ∀ i ∈ rest, itemKey i = itemKey x) :
    ∃ r, consolidate_items (x :: rest) = some [r] ∧
      r.quantity = x.quantity + (rest.length : Int) ∧
      ValidTier r.confidence ∧
      levelOf r.confidence =
        ((x :: rest).map (fun i => levelOf i.confidence)).foldl max 0 := by
  have hx : ValidTier x.confidence := hv x (List.mem_cons_self _ _)
  have h2 := fold_one_key rest (itemKey x) x hx
    (fun j hj => hv j (List.mem_cons_of_mem _ hj)) hk
  have h3 : consolidateFold [] (x :: rest) =
      some [(itemKey x, List.foldl mergeOne x rest)] := by
    rw [consolidateFold_cons, @consolidateStep_not_mem [] x rfl]
    exact h2
  refine ⟨List.foldl mergeOne x rest, ?_, ?_, ?_, ?_⟩
  · unfold consolidate_items
    rw [h3]
    rfl
  · exact foldl_mergeOne_quantity rest x
  · exact foldl_mergeOne_valid rest x hx
      (fun j hj => hv j (List.mem_cons_of_mem _ hj))
  · rw [foldl_mergeOne_level, List.map_cons, List.foldl_cons, Nat.zero_max]

theorem foldl_max_perm {l1 l2 : List Nat} (h : l1.Perm l2) :
    ∀ a : Nat, l1.foldl max a = l2.foldl max a := by
  induction h with
  | nil => intro a; rfl
  | cons x _ ih => intro a; rw [List.foldl_cons, List.foldl_cons, ih]
  | swap x y l =>
      intro a
      rw [List.foldl_cons, List.foldl_cons, List.foldl_cons, List.foldl_cons,
        Max.right_comm]
  | trans _ _ ih1 ih2 => intro a; rw [ih1, ih2]

theorem map_detection_valid (d : Detection) (u : String) :
    ValidTier (map_detection_to_item d u).confidence := by
  unfold map_detection_to_item
  dsimp only
  split_ifs <;> simp [ValidTier]

theorem consolidate_valid_total {items : List DetectedItem}
    (hv : ∀ i ∈ items, ValidTier i.confidence) :
    ∃ out, consolidate_items items = some out := by
  obtain ⟨mf, hf, _⟩ :=
    fold_valid (fun e he => absurd he (List.not_mem_nil e)) hv
  refine ⟨mf.map Prod.snd, ?_⟩
  unfold consolidate_items
  rw [hf]
  rfl

/-- Claim C1: consolidating N items (N at least 1) that all carry
quantity 1 and share one consolidation key pair (lowercased name,
category) yields exactly one item whose quantity is N and whose
confidence tier is the maximum input tier under low < medium < high. -/
theorem claim1_same_key (x : DetectedItem) (rest : List DetectedItem)
    (hq : ∀ i ∈ x :: rest, i.quantity = 1)
    (hv : ∀ i ∈ x :: rest, ValidTier i.confidence)
    (hk : ∀ i ∈ x :: rest, consolidationKeyPair i = consolidationKeyPair x) :
    ∃ r, consolidate_items (x :: rest) = some [r] ∧
      r.quantity = ((x :: rest).length : Int) ∧
      ValidTier r.confidence ∧
      levelOf r.confidence =
        ((x :: rest).map (fun i => levelOf i.confidence)).foldl max 0 := by
  have hk2 : ∀ i ∈ rest, itemKey i = itemKey x := by
    intro i hi
    have hpair := hk i (List.mem_cons_of_mem _ hi)
    unfold consolidationKeyPair at hpair
    have h1 := congrArg Prod.fst hpair
    have h2 := congrArg Prod.snd hpair
    dsimp only at h1 h2
    unfold itemKey
    rw [h1, h2]
  obtain ⟨r, hco, hqr, hvr, hlv⟩ := consolidate_single_key x rest hv hk2
  refine ⟨r, hco, ?_, hvr, hlv⟩
  rw [hqr, hq x (List.mem_cons_self _ _)]
  simp only [List.length_cons]
  push_cast
  ring

/-- Witness for claim C1 at two concrete mugs with tiers low and high. -/
theorem claim1_witness :
    ∃ r, consolidate_items [exA, exB] = some [r] ∧
      r.quantity = (([exA, exB] : List DetectedItem).length : Int) ∧
      ValidTier r.confidence ∧
      levelOf r.confidence =
        (([exA, exB] : List DetectedItem).map
          (fun i => levelOf i.confidence)).foldl max 0 :=
  claim1_same_key exA [exB] (by decide) (by decide) (by decide)

/-- Claim C2 counterexample: two items with distinct (lowercased name,
category) pairs but names containing a dash collide on the dash-joined
key string, so consolidate merges them instead of returning both. -/
theorem claim2_counterexample :
    consolidationKeyPair exDash1 ≠ consolidationKeyPair exDash2 ∧
    consolidate_items [exDash1, exDash2] = some [exDash12] := by
  decide

/-- Claim C2 (amended): for every list of items whose consolidation key
strings (lowercased name, a dash, the category) are pairwise distinct,
consolidate returns every input item unchanged, in order; in particular
the empty list maps to the empty list and a singleton is unchanged. -/
theorem claim2_distinct_keys (items : List DetectedItem)
    (hnd : (items.map itemKey).Nodup) : consolidate_items items = some items :=
  consolidate_of_nodup_keys hnd

/-- Witness for claim C2 at a two-item list with distinct keys. -/
theorem claim2_witness :
    (([exA, exC] : List DetectedItem).map itemKey).Nodup ∧
    consolidate_items [exA, exC] = some [exA, exC] :=
  ⟨by decide, claim2_distinct_keys [exA, exC] (by decide)⟩

/-- Claim C3 counterexample: on items carrying quantity above 1 the
output quantity is not the number of inputs sharing the key: two
same-key items with quantities 2 and 1 consolidate to quantity 3, not
2. -/
theorem claim3_counterexample :
    consolidate_items [exQ2, exQ1] = some [exQ21] ∧
    exQ21.quantity ≠ (countKey (itemKey exQ21) [exQ2, exQ1] : Int) := by
  decide

/-- Claim C3 (amended): each output item takes the quantity of the first
occurrence of its key plus one for every later input sharing the key
(input quantities are never summed); when every input has quantity 1
this equals the number of inputs sharing the key. -/
theorem claim3_quantity (items out : List DetectedItem) (r : DetectedItem)
    (h : consolidate_items items = some out) (hr : r ∈ out) :
    ∃ x, List.find? (fun i => itemKey i == itemKey r) items = some x ∧
      r.quantity = x.quantity + (countKey (itemKey r) items : Int) - 1 ∧
      ((∀ i ∈ items, i.quantity = 1) →
        r.quantity = (countKey (itemKey r) items : Int)) := by
  obtain ⟨mf, hf, rfl⟩ := consolidate_items_inv h
  have hlk := out_lookup hf hr
  rcases fold_char hf (itemKey r) r hlk with ⟨r0, hr0, _⟩ |
    ⟨_, x, hx, _, hq, _⟩
  · exact Option.noConfusion hr0
  · refine ⟨x, hx, hq, ?_⟩
    intro hq1
    have hx1 : x.quantity = 1 := hq1 x (List.mem_of_find?_eq_some hx)
    rw [hq, hx1]
    ring

/-- Witness for claim C3 at two concrete same-key mugs of quantity 1. -/
theorem claim3_witness :
    ∃ x, List.find? (fun i => itemKey i == itemKey exAB) [exA, exB] = some x ∧
      exAB.quantity = x.quantity + (countKey (itemKey exAB) [exA, exB] : Int) - 1 ∧
      ((∀ i ∈ [exA, exB], i.quantity = 1) →
        exAB.quantity = (countKey (itemKey exAB) [exA, exB] : Int)) :=
  claim3_quantity [exA, exB] [exAB] exAB (by decide) (by decide)

/-- Claim C7: the output of consolidate lists representatives in the
order in which their keys first appeared in the input. -/
theorem claim7_first_occurrence_order (items out : List DetectedItem)
    (h : consolidate_items items = some out) :
    out.map itemKey = firstOcc (items.map itemKey) := by
  obtain ⟨mf, hf, rfl⟩ := consolidate_items_inv h
  have hkeys := fold_keys hf
  have hinv := fold_itemKey_inv (fun e he => absurd he (List.not_mem_nil e)) hf
  have hmap : (mf.map Prod.snd).map itemKey = mf.map Prod.fst := by
    rw [List.map_map]
    exact List.map_congr_left (fun e he => hinv e he)
  rw [hmap, hkeys]
  simp only [List.map_nil, List.nil_append]
  rfl

/-- Witness for claim C7 at a three-item list with one duplicate key. -/
theorem claim7_witness :
    ([exAB, exC] : List DetectedItem).map itemKey =
      firstOcc (([exA, exB, exC] : List DetectedItem).map itemKey) :=
  claim7_first_occurrence_order [exA, exB, exC] [exAB, exC] (by decide)

/-- Claim C9: every output item keeps the name, category, description,
condition, ai-generated flag and source photo of the first input item
with its key; merges touch only quantity and confidence. -/
theorem claim9_frame (items out : List DetectedItem) (r : DetectedItem)
    (h : consolidate_items items = some out) (hr : r ∈ out) :
    ∃ x, List.find? (fun i => itemKey i == itemKey r) items = some x ∧
      r.name = x.name ∧ r.category = x.category ∧
      r.description = x.description ∧ r.condition = x.condition ∧
      r.aiGenerated = x.aiGenerated ∧ r.sourcePhoto = x.sourcePhoto := by
  obtain ⟨mf, hf, rfl⟩ := consolidate_items_inv h
  have hlk := out_lookup hf hr
  rcases fold_char hf (itemKey r) r hlk with ⟨r0, hr0, _⟩ |
    ⟨_, x, hx, hfr, _, _⟩
  · exact Option.noConfusion hr0
  · obtain ⟨h1, h2, h3, h4, h5, h6⟩ := hfr
    exact ⟨x, hx, h1.symm, h3.symm, h2.symm, h4.symm, h5.symm, h6.symm⟩

/-- Witness for claim C9 at two concrete same-key vases. -/
theorem claim9_witness :
    ∃ x, List.find? (fun i => itemKey i == itemKey exQ21) [exQ2, exQ1] = some x ∧
      exQ21.name = x.name ∧ exQ21.category = x.category ∧
      exQ21.description = x.description ∧ exQ21.condition = x.condition ∧
      exQ21.aiGenerated = x.aiGenerated ∧ exQ21.sourcePhoto = x.sourcePhoto :=
  claim9_frame [exQ2, exQ1] [exQ21] exQ21 (by decide) (by decide)

/-- Claim C10: consolidate is idempotent; its output has pairwise
distinct keys, so a second pass returns it unchanged. -/
theorem claim10_idempotent (items out : List DetectedItem)
    (h : consolidate_items items = some out) :
    consolidate_items out = some out := by
  obtain ⟨mf, hf, rfl⟩ := consolidate_items_inv h
  have hinv := fold_itemKey_inv (fun e he => absurd he (List.not_mem_nil e)) hf
  have hnd : (mf.map Prod.fst).Nodup := fold_keys_nodup (by simp) hf
  apply consolidate_of_nodup_keys
  have hmap : (mf.map Prod.snd).map itemKey = mf.map Prod.fst := by
    rw [List.map_map]
    exact List.map_congr_left (fun e he => hinv e he)
  rw [hmap]
  exact hnd

/-- Witness for claim C10 at a list whose consolidation merges once. -/
theorem claim10_witness : consolidate_items [exAB] = some [exAB] :=
  claim10_idempotent [exA, exB] [exAB] (by decide)

/-- Claim C6 counterexample: two same-key items with unequal quantity
fields consolidate to different merged quantities under the two
orderings, because the first occurrence contributes its own quantity. -/
theorem claim6_counterexample :
    itemKey exQ2 = itemKey exQ1 ∧
    consolidate_items [exQ2, exQ1] = some [exQ21] ∧
    consolidate_items [exQ1, exQ2] = some [exQ12] ∧
    exQ21.quantity ≠ exQ12.quantity := by
  decide

/-- Claim C6 (amended): for a multiset of items sharing one key in
which every item carries the same quantity value, every permutation
consolidates to the same merged quantity and the same merged tier. -/
theorem claim6_perm_invariant (l1 l2 : List DetectedItem) (k : String)
    (q : Int) (hp : l1.Perm l2) (hne : l1 ≠ [])
    (hk : ∀ i ∈ l1, itemKey i = k) (hq : ∀ i ∈ l1, i.quantity = q)
    (hv : ∀ i ∈ l1, ValidTier i.confidence) :
    ∃ r1 r2, consolidate_items l1 = some [r1] ∧
      consolidate_items l2 = some [r2] ∧
      r1.quantity = r2.quantity ∧ r1.confidence = r2.confidence := by
  have hk2 : ∀ i ∈ l2, itemKey i = k := fun i hi => hk i (hp.mem_iff.mpr hi)
  have hq2 : ∀ i ∈ l2, i.quantity = q := fun i hi => hq i (hp.mem_iff.mpr hi)
  have hv2 : ∀ i ∈ l2, ValidTier i.confidence :=
    fun i hi => hv i (hp.mem_iff.mpr hi)
  have hlen := hp.length_eq
  cases l1 with
  | nil => exact absurd rfl hne
  | cons x rest =>
      cases l2 with
      | nil => simp at hlen
      | cons y rest2 =>
          obtain ⟨r1, hc1, hqr1, hvr1, hlv1⟩ := consolidate_single_key x rest
            hv (fun i hi => by
              rw [hk i (List.mem_cons_of_mem _ hi),
                hk x (List.mem_cons_self _ _)])
          obtain ⟨r2, hc2, hqr2, hvr2, hlv2⟩ := consolidate_single_key y rest2
            hv2 (fun i hi => by
              rw [hk2 i (List.mem_cons_of_mem _ hi),
                hk2 y (List.mem_cons_self _ _)])
          refine ⟨r1, r2, hc1, hc2, ?_, ?_⟩
          · rw [hqr1, hqr2, hq x (List.mem_cons_self _ _),
              hq2 y (List.mem_cons_self _ _)]
            simp only [List.length_cons] at hlen
            omega
          · have hmap := hp.map (fun i => levelOf i.confidence)
            have hfold := foldl_max_perm hmap 0
            have hlvl : levelOf r1.confidence = levelOf r2.confidence := by
              rw [hlv1, hlv2]
              exact hfold
            exact levelOf_inj hvr1 hvr2 hlvl

/-- Witness for claim C6 at the two orderings of a concrete pair. -/
theorem claim6_witness :
    ∃ r1 r2, consolidate_items [exA, exB] = some [r1] ∧
      consolidate_items [exB, exA] = some [r2] ∧
      r1.quantity = r2.quantity ∧ r1.confidence = r2.confidence :=
  claim6_perm_invariant [exA, exB] [exB, exA] (itemKey exA) 1
    (List.Perm.swap exB exA []) (by decide) (by decide) (by decide) (by decide)

/-- Claim C8: a merge never lowers the stored tier; the tier changes
only when the incoming tier ranks strictly higher, and then it becomes
the incoming tier. -/
theorem claim8_merge_monotone (m m2 : List (String × DetectedItem))
    (item rep : DetectedItem)
    (hl : lookupAssoc m (itemKey item) = some rep)
    (hs : consolidateStep m item = some m2) :
    ∃ rep2, lookupAssoc m2 (itemKey item) = some rep2 ∧
      levelOf rep.confidence ≤ levelOf rep2.confidence ∧
      (rep2.confidence ≠ rep.confidence →
        levelOf rep.confidence < levelOf item.confidence ∧
        rep2.confidence = item.confidence) ∧
      (levelOf rep.confidence < levelOf item.confidence →
        rep2.confidence = item.confidence) := by
  rcases consolidateStep_inv hs with ⟨hnone, _⟩ | ⟨rep0, hsome, hrv, hiv, rfl⟩
  · rw [hl] at hnone
    exact Option.noConfusion hnone
  · have heq : rep0 = rep := Option.some.inj (hsome.symm.trans hl)
    subst heq
    refine ⟨mergeOne rep0 item, lookup_update_self _ hl, ?_, ?_, ?_⟩
    · rw [mergeOne_level]
      exact le_max_left _ _
    · intro hneq
      by_cases hgt : levelOf item.confidence > levelOf rep0.confidence
      · exact ⟨hgt, by simp [mergeOne, hgt]⟩
      · exfalso
        apply hneq
        simp [mergeOne, hgt]
    · intro hgt
      simp [mergeOne, hgt]

/-- Witness for claim C8 at a concrete one-entry dict and a
higher-tier incoming item. -/
theorem claim8_witness :
    ∃ rep2, lookupAssoc [(itemKey exA, exAB)] (itemKey exB) = some rep2 ∧
      levelOf exA.confidence ≤ levelOf rep2.confidence ∧
      (rep2.confidence ≠ exA.confidence →
        levelOf exA.confidence < levelOf exB.confidence ∧
        rep2.confidence = exB.confidence) ∧
      (levelOf exA.confidence < levelOf exB.confidence →
        rep2.confidence = exB.confidence) :=
  claim8_merge_monotone [(itemKey exA, exA)] [(itemKey exA, exAB)] exB exA
    (by decide) (by decide)

/-- All items built by the multi-photo loop from an all-failing oracle:
the pooled list is empty. -/
theorem flatMap_none_nil (fd : String → Option (List Detection)) :
    ∀ urls : List String, (∀ u ∈ urls, fd u = none) →
    (urls.flatMap (fun photo_url =>
      match fd photo_url with
      | some detections =>
          detections.map (fun det => map_detection_to_item det photo_url)
      | none => [])) = [] := by
  intro urls
  induction urls with
  | nil => intro _; rfl
  | cons u rest ih =>
      intro hfail
      rw [List.flatMap_cons, hfail u (List.mem_cons_self _ _)]
      rw [ih (fun v hv => hfail v (List.mem_cons_of_mem _ hv))]
      rfl

/-- Claim C4: the multi-photo handler always returns a success envelope
whose photosAnalyzed equals the number of requested URLs; per-URL
failures are swallowed, and when every photo fails the item list is
empty. -/
theorem claim4_multi_photo (fd : String → Option (List Detection))
    (urls : List String) :
    ∃ resp, analyze_multiple_photos fd urls = some resp ∧
      resp.photosAnalyzed = urls.length ∧
      ((∀ u ∈ urls, fd u = none) → resp.items = []) := by
  have hv : ∀ i ∈ urls.flatMap (fun photo_url =>
      match fd photo_url with
      | some detections =>
          detections.map (fun det => map_detection_to_item det photo_url)
      | none => []), ValidTier i.confidence := by
    intro i hi
    obtain ⟨u, hu, hmem⟩ := List.mem_flatMap.mp hi
    cases hfd : fd u with
    | none =>
        rw [hfd] at hmem
        simp at hmem
    | some dets =>
        rw [hfd] at hmem
        obtain ⟨d, hd, rfl⟩ := List.mem_map.mp hmem
        exact map_detection_valid d u
  obtain ⟨out, hout⟩ := consolidate_valid_total hv
  refine ⟨⟨out, urls.length⟩, ?_, rfl, ?_⟩
  · unfold analyze_multiple_photos
    dsimp only
    rw [hout]
    rfl
  · intro hfail
    have hempty := flatMap_none_nil fd urls hfail
    rw [hempty] at hout
    exact (Option.some.inj hout).symm

/-- Witness for claim C4 with a two-URL request on which every photo
fails. -/
theorem claim4_witness :
    ∃ resp, analyze_multiple_photos fdNone ["http://a", "http://b"] = some resp ∧
      resp.photosAnalyzed = 2 ∧ resp.items = [] := by
  obtain ⟨resp, h1, h2, h3⟩ := claim4_multi_photo fdNone ["http://a", "http://b"]
  exact ⟨resp, h1, h2, h3 (fun u _ => rfl)⟩

/-- Claim C5: the item builder assigns tier high exactly when the score
is at least 0.8, medium exactly when it is at least 0.5 and below 0.8,
and low exactly when it is below 0.5; at the scores 0.8, 0.7999, 0.5
and 0.4999 it yields high, medium, medium and low. -/
theorem claim5_confidence_tiers :
    (∀ (d : Detection) (u : String),
      ((map_detection_to_item d u).confidence = "high" ↔
        8/10 ≤ d.confidence) ∧
      ((map_detection_to_item d u).confidence = "medium" ↔
        5/10 ≤ d.confidence ∧ d.confidence < 8/10) ∧
      ((map_detection_to_item d u).confidence = "low" ↔
        d.confidence < 5/10)) ∧
    (map_detection_to_item ⟨"laptop", 8/10⟩ "p").confidence = "high" ∧
    (map_detection_to_item ⟨"laptop", 7999/10000⟩ "p").confidence = "medium" ∧
    (map_detection_to_item ⟨"laptop", 5/10⟩ "p").confidence = "medium" ∧
    (map_detection_to_item ⟨"laptop", 4999/10000⟩ "p").confidence = "low" := by
  have huniv : ∀ (d : Detection) (u : String),
      ((map_detection_to_item d u).confidence = "high" ↔
        8/10 ≤ d.confidence) ∧
      ((map_detection_to_item d u).confidence = "medium" ↔
        5/10 ≤ d.confidence ∧ d.confidence < 8/10) ∧
      ((map_detection_to_item d u).confidence = "low" ↔
        d.confidence < 5/10) := by
    intro d u
    unfold map_detection_to_item
    dsimp only
    by_cases h1 : d.confidence ≥ 8/10
    · rw [if_pos h1]
      refine ⟨iff_of_true rfl h1, ?_, ?_⟩
      · exact iff_of_false (by decide) (fun hc => absurd h1 (not_le.mpr hc.2))
      · refine iff_of_false (by decide) (fun hc => absurd h1 (not_le.mpr ?_))
        exact lt_of_lt_of_le hc (by norm_num)
    · rw [if_neg h1]
      by_cases h2 : d.confidence ≥ 5/10
      · rw [if_pos h2]
        refine ⟨iff_of_false (by decide) h1,
          iff_of_true rfl ⟨h2, not_le.mp h1⟩, ?_⟩
        exact iff_of_false (by decide) (fun hc => absurd h2 (not_le.mpr hc))
      · rw [if_neg h2]
        exact ⟨iff_of_false (by decide) h1,
          iff_of_false (by decide) (fun hc => h2 hc.1),
          iff_of_true rfl (not_le.mp h2)⟩
  refine ⟨huniv, ?_, ?_, ?_, ?_⟩
  · exact (huniv ⟨"laptop", 8/10⟩ "p").1.mpr (by norm_num)
  · exact (huniv ⟨"laptop", 7999/10000⟩ "p").2.1.mpr (by norm_num)
  · exact (huniv ⟨"laptop", 5/10⟩ "p").2.1.mpr (by norm_num)
  · exact (huniv ⟨"laptop", 4999/10000⟩ "p").2.2.mpr (by norm_num)
